import Mathlib

/-!
Verification of the ambulance waiting-list web API core
(package ambulance_wl and package db_service) against its specification.

The Go handlers in internal/ambulance_wl/impl_ambulance_waiting_list.go each
run an updater function of shape
  func(ctx, ambulance *Ambulance) (*Ambulance, interface{}, int)
through updateAmbulanceFunc; we embed each updater body as a pure function
from the ambulance aggregate (plus request parameters) to a response record.
A nil returned ambulance means "do not persist"; we model it as `none`.
Machine integers (int32 durations) are modelled as Int, timestamps as Nat
(seconds since the Go zero time, whose zero value is 0).
-/

/-- Waiting-list entry. Fields per spec section 3 and their uses in the
handlers: Id, PatientId, WaitingSince, EstimatedDurationMinutes.
`estimatedStart` is the derived per-entry field recomputed by reconciliation
(spec: "estimated start time offsets"); the model type itself is generated
code not included under src. -/
structure WaitingListEntry where
  id : String
  patientId : String
  waitingSince : Nat
  estimatedDurationMinutes : Int
  estimatedStart : Nat
deriving DecidableEq

/-- Ambulance aggregate root: identity, name, ordered waiting list. -/
structure Ambulance where
  id : String
  name : String
  waitingList : List WaitingListEntry
deriving DecidableEq

/-- Two entries agree on all caller-visible (non-derived) fields. -/
def coreEq (a b : WaitingListEntry) : Prop :=
  a.id = b.id ∧ a.patientId = b.patientId ∧ a.waitingSince = b.waitingSince ∧
    a.estimatedDurationMinutes = b.estimatedDurationMinutes

instance : DecidablePred (fun p : WaitingListEntry × WaitingListEntry => coreEq p.1 p.2) :=
  fun _ => by unfold coreEq; infer_instance

/-- Embedding of Go slices.IndexFunc: index of the first element satisfying
the predicate, `none` when there is none (Go returns -1). -/
def indexFunc (p : WaitingListEntry → Bool) : List WaitingListEntry → Option Nat
  | [] => none
  | e :: rest => if p e then some 0 else (indexFunc p rest).map (· + 1)

theorem indexFunc_eq_none {p : WaitingListEntry → Bool} :
    ∀ {l : List WaitingListEntry}, indexFunc p l = none → ∀ e ∈ l, p e = false := by
  intro l
  induction l with
  | nil => intro _ e he; cases he
  | cons a rest ih =>
    intro h e he
    by_cases hpa : p a
    · simp [indexFunc, hpa] at h
    · simp [indexFunc, hpa] at h
      rcases List.mem_cons.mp he with rfl | he'
      · simpa using hpa
      · exact ih h e he'

theorem indexFunc_eq_some {p : WaitingListEntry → Bool} :
    ∀ {l : List WaitingListEntry} {i : Nat}, indexFunc p l = some i →
      ∃ e, l.get? i = some e ∧ p e = true := by
  intro l
  induction l with
  | nil => intro i h; cases h
  | cons a rest ih =>
    intro i h
    by_cases hpa : p a
    · simp [indexFunc, hpa] at h
      exact ⟨a, by simp [← h], hpa⟩
    · simp [indexFunc, hpa] at h
      rcases h with ⟨j, hj, rfl⟩
      rcases ih hj with ⟨e, he, hpe⟩
      exact ⟨e, by simpa using he, hpe⟩

theorem indexFunc_exists_some {p : WaitingListEntry → Bool} :
    ∀ {l : List WaitingListEntry}, (∃ e ∈ l, p e = true) → ∃ i, indexFunc p l = some i := by
  intro l
  induction l with
  | nil => rintro ⟨e, he, -⟩; cases he
  | cons a rest ih =>
    rintro ⟨e, he, hpe⟩
    by_cases hpa : p a
    · exact ⟨0, by simp [indexFunc, hpa]⟩
    · rcases List.mem_cons.mp he with rfl | he'
      · exact absurd hpe (by simpa using hpa)
      · rcases ih ⟨e, he', hpe⟩ with ⟨i, hi⟩
        exact ⟨i + 1, by simp [indexFunc, hpa, hi]⟩

/-! ## The waiting-list reconciler

`reconcileWaitingList` is invoked by every mutating handler in src but its
definition lives in a repository file not included under src. -/

/-- Ordering key for reconciliation: arrival time. -/
def wlLE (a b : WaitingListEntry) : Prop := a.waitingSince ≤ b.waitingSince

instance : DecidableRel wlLE := fun a b => Nat.decLe a.waitingSince b.waitingSince

instance : IsTotal WaitingListEntry wlLE :=
  ⟨fun a b => Nat.le_total a.waitingSince b.waitingSince⟩

instance : IsTrans WaitingListEntry wlLE :=
  ⟨fun _ _ _ hab hbc => Nat.le_trans hab hbc⟩

/-- Recompute the derived estimated-start offsets: each entry starts after the
accumulated durations of the entries queued before it. -/
def computeEstimatedStart (acc : Nat) : List WaitingListEntry → List WaitingListEntry
  | [] => []
  | e :: rest =>
      { e with estimatedStart := acc } ::
        computeEstimatedStart (acc + e.estimatedDurationMinutes.toNat) rest

/-- Modelled from the spec: `reconcileWaitingList` (called by every mutating
handler in impl_ambulance_waiting_list.go; its definition is repository code
not included under src). Spec sections 3 and 4.3: re-sort the list into a
deterministic order keyed by arrival time and recompute the derived
estimated-start offsets; identities and caller-visible fields are untouched. -/
def reconcile (l : List WaitingListEntry) : List WaitingListEntry :=
  computeEstimatedStart 0 (List.insertionSort wlLE l)

theorem computeEstimatedStart_map_waitingSince (acc : Nat) :
    ∀ l : List WaitingListEntry,
      (computeEstimatedStart acc l).map (·.waitingSince) = l.map (·.waitingSince) := by
  intro l
  induction l generalizing acc with
  | nil => rfl
  | cons e rest ih => simp [computeEstimatedStart, ih]

theorem computeEstimatedStart_map_pair (acc : Nat) :
    ∀ l : List WaitingListEntry,
      (computeEstimatedStart acc l).map (fun e => (e.id, e.patientId)) =
        l.map (fun e => (e.id, e.patientId)) := by
  intro l
  induction l generalizing acc with
  | nil => rfl
  | cons e rest ih => simp [computeEstimatedStart, ih]

theorem computeEstimatedStart_idem (acc : Nat) :
    ∀ l : List WaitingListEntry,
      computeEstimatedStart acc (computeEstimatedStart acc l) = computeEstimatedStart acc l := by
  intro l
  induction l generalizing acc with
  | nil => rfl
  | cons e rest ih => simp [computeEstimatedStart, ih]

theorem computeEstimatedStart_sorted {l : List WaitingListEntry} (acc : Nat)
    (h : List.Sorted wlLE l) : List.Sorted wlLE (computeEstimatedStart acc l) := by
  have hmap : (computeEstimatedStart acc l).map (·.waitingSince) = l.map (·.waitingSince) :=
    computeEstimatedStart_map_waitingSince acc l
  have h1 : List.Pairwise (fun a b : Nat => a ≤ b) (l.map (·.waitingSince)) := by
    rw [List.pairwise_map]; exact h
  have h2 : List.Pairwise (fun a b : Nat => a ≤ b)
      ((computeEstimatedStart acc l).map (·.waitingSince)) := hmap ▸ h1
  rw [List.pairwise_map] at h2
  exact h2

/-- Reconciliation is idempotent. -/
theorem reconcile_idem (l : List WaitingListEntry) : reconcile (reconcile l) = reconcile l := by
  unfold reconcile
  have hs : List.Sorted wlLE (computeEstimatedStart 0 (List.insertionSort wlLE l)) :=
    computeEstimatedStart_sorted 0 (List.sorted_insertionSort wlLE l)
  rw [hs.insertionSort_eq, computeEstimatedStart_idem]

/-- Reconciliation permutes the identity pairs of the entries. -/
theorem reconcile_map_pair_perm (l : List WaitingListEntry) :
    ((reconcile l).map (fun e => (e.id, e.patientId))).Perm
      (l.map (fun e => (e.id, e.patientId))) := by
  unfold reconcile
  rw [computeEstimatedStart_map_pair]
  exact (List.perm_insertionSort wlLE l).map _

theorem computeEstimatedStart_mem (acc : Nat) {l : List WaitingListEntry}
    {e : WaitingListEntry} (h : e ∈ computeEstimatedStart acc l) :
    ∃ e₀ ∈ l, coreEq e e₀ := by
  induction l generalizing acc with
  | nil => cases h
  | cons a rest ih =>
    rcases List.mem_cons.mp h with h' | h'
    · exact ⟨a, List.mem_cons_self a rest, by simp [h', coreEq]⟩
    · rcases ih _ h' with ⟨e₀, he₀, hcore⟩
      exact ⟨e₀, List.mem_cons_of_mem a he₀, hcore⟩

theorem mem_computeEstimatedStart (acc : Nat) {l : List WaitingListEntry}
    {e₀ : WaitingListEntry} (h : e₀ ∈ l) :
    ∃ e ∈ computeEstimatedStart acc l, coreEq e e₀ := by
  induction l generalizing acc with
  | nil => cases h
  | cons a rest ih =>
    rcases List.mem_cons.mp h with h' | h'
    · subst h'
      exact ⟨{ e₀ with estimatedStart := acc }, List.mem_cons_self _ _, by simp [coreEq]⟩
    · rcases ih (acc + a.estimatedDurationMinutes.toNat) h' with ⟨e, he, hcore⟩
      exact ⟨e, List.mem_cons_of_mem _ he, hcore⟩

/-- Every entry of the reconciled list has the caller-visible fields of an
entry of the original list. -/
theorem mem_reconcile_core {l : List WaitingListEntry} {e : WaitingListEntry}
    (h : e ∈ reconcile l) : ∃ e₀ ∈ l, coreEq e e₀ := by
  unfold reconcile at h
  rcases computeEstimatedStart_mem 0 h with ⟨e₀, he₀, hcore⟩
  exact ⟨e₀, (List.mem_insertionSort wlLE).mp he₀, hcore⟩

/-- Every entry of the original list keeps its caller-visible fields in the
reconciled list. -/
theorem mem_core_reconcile {l : List WaitingListEntry} {e₀ : WaitingListEntry}
    (h : e₀ ∈ l) : ∃ e ∈ reconcile l, coreEq e e₀ := by
  unfold reconcile
  exact mem_computeEstimatedStart 0 ((List.mem_insertionSort wlLE).mpr h)

/-! ## Waiting-list operations

Each handler body in impl_ambulance_waiting_list.go is an updater returning
(ambulance-to-persist-or-nil, payload, HTTP status). updateAmbulanceFunc
(repository code not under src; spec section 4.4: Find aggregate, mutate,
reconcile, Update aggregate) persists the ambulance only when it is non-nil,
so `newAmbulance = none` means the stored aggregate is unchanged. -/

/-- Outcome of one waiting-list updater: the ambulance to persist (`none` for
"do not persist"), the HTTP status, and the entry payload when one is
returned. -/
structure WlResponse where
  newAmbulance : Option Ambulance
  status : Nat
  payload : Option WaitingListEntry
deriving DecidableEq

/-- CreateWaitingListEntry lines 37-39: empty or placeholder id becomes a
freshly generated id (`freshId` stands for the uuid.NewString result). -/
def normalizeId (freshId : String) (e : WaitingListEntry) : WaitingListEntry :=
  if e.id = "" ∨ e.id = "@new" then { e with id := freshId } else e

/-- CreateWaitingListEntry lines 41-43: a WaitingSince strictly before now
becomes now. -/
def normalizeWaitingSince (now : Nat) (e : WaitingListEntry) : WaitingListEntry :=
  if e.waitingSince < now then { e with waitingSince := now } else e

/-- CreateWaitingListEntry lines 45-47: a non-positive duration becomes 15. -/
def normalizeDuration (e : WaitingListEntry) : WaitingListEntry :=
  if e.estimatedDurationMinutes ≤ 0 then { e with estimatedDurationMinutes := 15 } else e

/-- The three sequential normalization steps of CreateWaitingListEntry. -/
def normalizeEntry (now : Nat) (freshId : String) (entry : WaitingListEntry) :
    WaitingListEntry :=
  normalizeDuration (normalizeWaitingSince now (normalizeId freshId entry))

/-- Embedding of CreateWaitingListEntry: validate PatientId, normalize,
reject on Id/PatientId conflict, append, reconcile, re-find the inserted
entry by its id and return it. -/
def createWaitingListEntry (now : Nat) (freshId : String) (amb : Ambulance)
    (entry : WaitingListEntry) : WlResponse :=
  if entry.patientId = "" then ⟨none, 400, none⟩
  else
    let e := normalizeEntry now freshId entry
    match indexFunc (fun w => e.id == w.id || e.patientId == w.patientId) amb.waitingList with
    | some _ => ⟨none, 409, none⟩
    | none =>
        let newList := reconcile (amb.waitingList ++ [e])
        match indexFunc (fun w => e.id == w.id) newList with
        | none => ⟨none, 500, none⟩
        | some i => ⟨some { amb with waitingList := newList }, 200, newList.get? i⟩

/-- UpdateWaitingListEntry line 198-200: overwrite PatientId when supplied
non-empty. -/
def patchPatientId (e patch : WaitingListEntry) : WaitingListEntry :=
  if patch.patientId ≠ "" then { e with patientId := patch.patientId } else e

/-- UpdateWaitingListEntry line 202-204: overwrite Id when supplied
non-empty. -/
def patchId (e patch : WaitingListEntry) : WaitingListEntry :=
  if patch.id ≠ "" then { e with id := patch.id } else e

/-- UpdateWaitingListEntry line 206-208: overwrite WaitingSince when supplied
after the zero time. -/
def patchWaitingSince (e patch : WaitingListEntry) : WaitingListEntry :=
  if 0 < patch.waitingSince then { e with waitingSince := patch.waitingSince } else e

/-- UpdateWaitingListEntry line 210-212: overwrite EstimatedDurationMinutes
when supplied positive. -/
def patchDuration (e patch : WaitingListEntry) : WaitingListEntry :=
  if 0 < patch.estimatedDurationMinutes
  then { e with estimatedDurationMinutes := patch.estimatedDurationMinutes } else e

/-- The four sequential per-field overwrites of UpdateWaitingListEntry. -/
def applyPatch (old patch : WaitingListEntry) : WaitingListEntry :=
  patchDuration (patchWaitingSince (patchId (patchPatientId old patch) patch) patch) patch

/-- Embedding of UpdateWaitingListEntry: empty id is a validation failure,
missing id is NotFound; otherwise patch the entry in place, reconcile, and
return the element at the original index of the reconciled list (the source
indexes the reconciled list with the pre-reconcile index). The inner `none`
branch of the indexed read is unreachable because the found index is within
bounds. -/
def updateWaitingListEntry (amb : Ambulance) (entryId : String)
    (patch : WaitingListEntry) : WlResponse :=
  if entryId = "" then ⟨none, 400, none⟩
  else
    match indexFunc (fun w => entryId == w.id) amb.waitingList with
    | none => ⟨none, 404, none⟩
    | some i =>
        match amb.waitingList.get? i with
        | none => ⟨none, 500, none⟩
        | some old =>
            let newList := reconcile (amb.waitingList.set i (applyPatch old patch))
            ⟨some { amb with waitingList := newList }, 200, newList.get? i⟩

/-- Embedding of DeleteWaitingListEntry: empty id is a validation failure,
missing id is NotFound; otherwise remove the entry, reconcile, 204. -/
def deleteWaitingListEntry (amb : Ambulance) (entryId : String) : WlResponse :=
  if entryId = "" then ⟨none, 400, none⟩
  else
    match indexFunc (fun w => entryId == w.id) amb.waitingList with
    | none => ⟨none, 404, none⟩
    | some i =>
        ⟨some { amb with waitingList := reconcile (amb.waitingList.eraseIdx i) }, 204, none⟩

/-- Embedding of GetWaitingListEntry: read-only; empty id is a validation
failure, missing id is NotFound. -/
def getWaitingListEntry (amb : Ambulance) (entryId : String) : WlResponse :=
  if entryId = "" then ⟨none, 400, none⟩
  else
    match indexFunc (fun w => entryId == w.id) amb.waitingList with
    | none => ⟨none, 404, none⟩
    | some i => ⟨none, 200, amb.waitingList.get? i⟩

/-- Uniqueness invariant of one ambulance waiting list (spec section 3). -/
def wlInvariant (l : List WaitingListEntry) : Prop :=
  (l.map (·.id)).Nodup ∧ (l.map (·.patientId)).Nodup

instance (l : List WaitingListEntry) : Decidable (wlInvariant l) := by
  unfold wlInvariant; infer_instance

/-- The invariant on the persisted side of a response: holds vacuously when
nothing is persisted. -/
def invOpt : Option Ambulance → Prop
  | none => True
  | some a => wlInvariant a.waitingList

instance (o : Option Ambulance) : Decidable (invOpt o) := by
  cases o <;> (unfold invOpt; infer_instance)

/-! ## Projection lemmas for normalization and patching -/

theorem normalizeEntry_id (now : Nat) (f : String) (e : WaitingListEntry) :
    (normalizeEntry now f e).id = if e.id = "" ∨ e.id = "@new" then f else e.id := by
  unfold normalizeEntry normalizeDuration normalizeWaitingSince normalizeId
  split_ifs <;> rfl

theorem normalizeEntry_patientId (now : Nat) (f : String) (e : WaitingListEntry) :
    (normalizeEntry now f e).patientId = e.patientId := by
  unfold normalizeEntry normalizeDuration normalizeWaitingSince normalizeId
  split_ifs <;> rfl

theorem normalizeEntry_waitingSince (now : Nat) (f : String) (e : WaitingListEntry) :
    (normalizeEntry now f e).waitingSince =
      if e.waitingSince < now then now else e.waitingSince := by
  unfold normalizeEntry normalizeDuration normalizeWaitingSince normalizeId
  split_ifs <;> rfl

theorem normalizeEntry_duration (now : Nat) (f : String) (e : WaitingListEntry) :
    (normalizeEntry now f e).estimatedDurationMinutes =
      if e.estimatedDurationMinutes ≤ 0 then 15 else e.estimatedDurationMinutes := by
  unfold normalizeEntry normalizeDuration normalizeWaitingSince normalizeId
  split_ifs with h1 h2 h3 <;> first | rfl | (exfalso; simp_all)

theorem applyPatch_id (old patch : WaitingListEntry) :
    (applyPatch old patch).id = if patch.id = "" then old.id else patch.id := by
  unfold applyPatch patchDuration patchWaitingSince patchId patchPatientId
  split_ifs <;> simp_all

theorem applyPatch_patientId (old patch : WaitingListEntry) :
    (applyPatch old patch).patientId =
      if patch.patientId = "" then old.patientId else patch.patientId := by
  unfold applyPatch patchDuration patchWaitingSince patchId patchPatientId
  split_ifs <;> simp_all

theorem applyPatch_waitingSince (old patch : WaitingListEntry) :
    (applyPatch old patch).waitingSince =
      if 0 < patch.waitingSince then patch.waitingSince else old.waitingSince := by
  unfold applyPatch patchDuration patchWaitingSince patchId patchPatientId
  split_ifs <;> simp_all

theorem applyPatch_duration (old patch : WaitingListEntry) :
    (applyPatch old patch).estimatedDurationMinutes =
      if 0 < patch.estimatedDurationMinutes
      then patch.estimatedDurationMinutes else old.estimatedDurationMinutes := by
  unfold applyPatch patchDuration patchWaitingSince patchId patchPatientId
  split_ifs <;> simp_all

/-! ## Helper lemmas for the uniqueness invariant -/

theorem map_eraseIdx_comm {α β : Type} (f : α → β) :
    ∀ (l : List α) (i : Nat), (l.eraseIdx i).map f = (l.map f).eraseIdx i := by
  intro l
  induction l with
  | nil => intro i; cases i <;> rfl
  | cons a rest ih =>
    intro i
    cases i with
    | zero => rfl
    | succ j => simp [List.eraseIdx, ih j]

theorem nodup_get_not_mem_eraseIdx {α : Type} :
    ∀ {l : List α} {i : Nat} {a : α}, l.Nodup → l.get? i = some a → a ∉ l.eraseIdx i := by
  intro l
  induction l with
  | nil => intro i a _ h; cases h
  | cons b rest ih =>
    intro i a hn hg
    cases i with
    | zero =>
      have : a = b := by simpa using hg.symm
      subst this
      simpa [List.eraseIdx] using (List.nodup_cons.mp hn).1
    | succ j =>
      have hg' : rest.get? j = some a := by simpa using hg
      have hn' := List.nodup_cons.mp hn
      intro hmem
      rcases List.mem_cons.mp (by simpa [List.eraseIdx] using hmem) with rfl | hmem'
      · exact hn'.1 (List.get?_mem hg')
      · exact ih hn'.2 hg' hmem'

theorem nodup_set {α : Type} :
    ∀ {l : List α} {i : Nat} {x : α}, l.Nodup → x ∉ l.eraseIdx i → (l.set i x).Nodup := by
  intro l
  induction l with
  | nil => intro i x _ _; simp
  | cons a rest ih =>
    intro i x hn hx
    have hn' := List.nodup_cons.mp hn
    cases i with
    | zero =>
      rw [List.set]
      exact List.nodup_cons.mpr ⟨by simpa [List.eraseIdx] using hx, hn'.2⟩
    | succ j =>
      rw [List.set]
      have hx' : x ∉ rest.eraseIdx j := fun hmem =>
        hx (by simpa [List.eraseIdx] using Or.inr hmem)
      have hxa : x ≠ a := fun hexa =>
        hx (by simp [List.eraseIdx, hexa])
      refine List.nodup_cons.mpr ⟨fun hmem => ?_, ih hn'.2 hx'⟩
      rcases List.mem_or_eq_of_mem_set hmem with hmem' | rfl
      · exact hn'.1 hmem'
      · exact hxa rfl

theorem computeEstimatedStart_map_id (acc : Nat) :
    ∀ l : List WaitingListEntry,
      (computeEstimatedStart acc l).map (·.id) = l.map (·.id) := by
  intro l
  induction l generalizing acc with
  | nil => rfl
  | cons e rest ih => simp [computeEstimatedStart, ih]

theorem computeEstimatedStart_map_patientId (acc : Nat) :
    ∀ l : List WaitingListEntry,
      (computeEstimatedStart acc l).map (·.patientId) = l.map (·.patientId) := by
  intro l
  induction l generalizing acc with
  | nil => rfl
  | cons e rest ih => simp [computeEstimatedStart, ih]

theorem reconcile_map_id_perm (l : List WaitingListEntry) :
    ((reconcile l).map (·.id)).Perm (l.map (·.id)) := by
  unfold reconcile
  rw [computeEstimatedStart_map_id]
  exact (List.perm_insertionSort wlLE l).map _

theorem reconcile_map_patientId_perm (l : List WaitingListEntry) :
    ((reconcile l).map (·.patientId)).Perm (l.map (·.patientId)) := by
  unfold reconcile
  rw [computeEstimatedStart_map_patientId]
  exact (List.perm_insertionSort wlLE l).map _

/-- Reconciliation preserves the uniqueness invariant. -/
theorem wlInvariant_reconcile {l : List WaitingListEntry} (h : wlInvariant l) :
    wlInvariant (reconcile l) :=
  ⟨(reconcile_map_id_perm l).nodup_iff.mpr h.1,
   (reconcile_map_patientId_perm l).nodup_iff.mpr h.2⟩

/-- When CreateWaitingListEntry returns a payload, that payload carries the
caller-visible fields of the normalized input entry (reconciliation only
reorders and recomputes the derived field, and the freshly inserted entry is
re-found by its id, which no pre-existing entry shares). -/
theorem create_payload_core {now : Nat} {freshId : String} {amb : Ambulance}
    {entry e : WaitingListEntry}
    (hp : (createWaitingListEntry now freshId amb entry).payload = some e) :
    coreEq e (normalizeEntry now freshId entry) := by
  unfold createWaitingListEntry at hp
  by_cases hpid : entry.patientId = ""
  · simp [hpid] at hp
  · rw [if_neg hpid] at hp
    simp only at hp
    cases hconf : indexFunc
        (fun w => (normalizeEntry now freshId entry).id == w.id ||
          (normalizeEntry now freshId entry).patientId == w.patientId) amb.waitingList with
    | some j => rw [hconf] at hp; simp at hp
    | none =>
      rw [hconf] at hp
      cases hfind : indexFunc (fun w => (normalizeEntry now freshId entry).id == w.id)
          (reconcile (amb.waitingList ++ [normalizeEntry now freshId entry])) with
      | none => rw [hfind] at hp; simp at hp
      | some i =>
        rw [hfind] at hp
        simp only at hp
        rcases indexFunc_eq_some hfind with ⟨e', hget, hpe'⟩
        rw [hp] at hget
        have hee' : e = e' := by simpa using hget
        subst hee'
        have hid : (normalizeEntry now freshId entry).id = e.id := by
          simpa using hpe'
        have hmem : e ∈ reconcile (amb.waitingList ++ [normalizeEntry now freshId entry]) :=
          List.get?_mem hp
        rcases mem_reconcile_core hmem with ⟨e₀, he₀, hcore⟩
        rcases List.mem_append.mp he₀ with hold | hnew
        · exfalso
          have hfalse := indexFunc_eq_none hconf e₀ hold
          have : (normalizeEntry now freshId entry).id ≠ e₀.id := by
            intro hcontra
            simp [hcontra] at hfalse
          exact this (hid.trans hcore.1)
        · have : e₀ = normalizeEntry now freshId entry := by simpa using hnew
          exact this ▸ hcore

/-! ## Document store (internal/db_service/mongo_svc.go)

The store backing one collection is modelled as an association of the
document key (the "id" field used in every FindOne/ReplaceOne/DeleteOne
filter) to the document; Mongo operations act on the first match. -/

/-- The error taxonomy of db_service (ErrNotFound, ErrConflict). -/
inductive DbErr where
  | notFound
  | conflict
deriving DecidableEq

/-- FindOne on the filter {id: key}: the first stored document under the
key. -/
def findDoc {Doc : Type} (store : List (String × Doc)) (key : String) : Option Doc :=
  (store.find? (fun kv => kv.1 == key)).map (·.2)

/-- ReplaceOne on the filter {id: key}: fully replace the first stored
document under the key. -/
def replaceDoc {Doc : Type} : List (String × Doc) → String → Doc → List (String × Doc)
  | [], _, _ => []
  | kv :: rest, key, doc =>
      if kv.1 = key then (key, doc) :: rest else kv :: replaceDoc rest key doc

/-- Embedding of mongoSvc.UpdateDocument (lines 243-290), absent transport
failures: FindOne the id, fail with ErrNotFound when absent, otherwise
ReplaceOne the stored document with the given one. -/
def updateDocument {Doc : Type} (store : List (String × Doc)) (key : String) (doc : Doc) :
    Except DbErr (List (String × Doc)) :=
  match findDoc store key with
  | none => Except.error DbErr.notFound
  | some _ => Except.ok (replaceDoc store key doc)

theorem findDoc_replaceDoc_self {Doc : Type} :
    ∀ {store : List (String × Doc)} {key : String} {doc : Doc},
      (findDoc store key).isSome → findDoc (replaceDoc store key doc) key = some doc := by
  intro store
  induction store with
  | nil => intro key doc h; simp [findDoc] at h
  | cons kv rest ih =>
    intro key doc h
    by_cases hk : kv.1 = key
    · simp [findDoc, replaceDoc, hk, List.find?]
    · have hbeq : (kv.1 == key) = false := by simpa using hk
      simp only [findDoc, replaceDoc, if_neg hk, List.find?, hbeq] at h ⊢
      exact ih h

theorem findDoc_replaceDoc_other {Doc : Type} :
    ∀ {store : List (String × Doc)} {key k : String} {doc : Doc}, k ≠ key →
      findDoc (replaceDoc store key doc) k = findDoc store k := by
  intro store
  induction store with
  | nil => intro key k doc _; rfl
  | cons kv rest ih =>
    intro key k doc hkk
    by_cases hk : kv.1 = key
    · have h1 : (key == k) = false := by simpa using (Ne.symm hkk)
      have h2 : (kv.1 == k) = false := by simpa [hk] using (Ne.symm hkk)
      simp [findDoc, replaceDoc, hk, List.find?, h1, h2]
    · by_cases hkv : kv.1 = k
      · simp [findDoc, replaceDoc, if_neg hk, List.find?, hkv, hkk]
      · have h2 : (kv.1 == k) = false := by simpa using hkv
        simp only [findDoc, replaceDoc, if_neg hk, List.find?, h2]
        exact ih hkk

/-! ## Connection manager (mongoSvc.connect, lines 115-148)

Each caller of connect runs: lock-free optimistic load of the atomic client
pointer; on miss, acquire clientLock; pessimistic re-load under the lock; on
miss, construct the connection (which may fail; a failure is returned to the
caller and nothing is cached), store the handle, release the lock. We model
the interleaving of any number of callers by a small-step relation; handles
are numbered by the construction counter. -/

/-- Control point of one caller inside connect. -/
inductive TState where
  | start
  | waitLock
  | locked
  | constructing
  | done (h : Nat)
  | failed
deriving DecidableEq

/-- Shared state: the atomic client pointer (`cache`), the clientLock mutex,
the number of successful constructions, and each caller's control point. -/
structure CMState where
  cache : Option Nat
  lock : Bool
  count : Nat
  threads : List TState
deriving DecidableEq

/-- One interleaved step of some caller executing connect. -/
inductive cmStep : CMState → CMState → Prop where
  | optimisticHit (s : CMState) (i h : Nat) :
      s.threads.get? i = some TState.start → s.cache = some h →
      cmStep s { s with threads := s.threads.set i (TState.done h) }
  | optimisticMiss (s : CMState) (i : Nat) :
      s.threads.get? i = some TState.start → s.cache = none →
      cmStep s { s with threads := s.threads.set i TState.waitLock }
  | acquire (s : CMState) (i : Nat) :
      s.threads.get? i = some TState.waitLock → s.lock = false →
      cmStep s { s with lock := true, threads := s.threads.set i TState.locked }
  | pessimisticHit (s : CMState) (i h : Nat) :
      s.threads.get? i = some TState.locked → s.cache = some h →
      cmStep s { s with lock := false, threads := s.threads.set i (TState.done h) }
  | pessimisticMiss (s : CMState) (i : Nat) :
      s.threads.get? i = some TState.locked → s.cache = none →
      cmStep s { s with threads := s.threads.set i TState.constructing }
  | constructOk (s : CMState) (i : Nat) :
      s.threads.get? i = some TState.constructing →
      cmStep s { s with cache := some s.count, count := s.count + 1, lock := false,
                        threads := s.threads.set i (TState.done s.count) }
  | constructFail (s : CMState) (i : Nat) :
      s.threads.get? i = some TState.constructing →
      cmStep s { s with lock := false, threads := s.threads.set i TState.failed }

/-- Initial state: empty cache, free lock, no constructions, n callers about
to enter connect for the first time. -/
def cmInit (n : Nat) : CMState :=
  { cache := none, lock := false, count := 0, threads := List.replicate n TState.start }

/-- States reachable from the initial state by interleaved caller steps. -/
inductive cmReach (n : Nat) : CMState → Prop where
  | init : cmReach n (cmInit n)
  | step {s s' : CMState} : cmReach n s → cmStep s s' → cmReach n s'

/-- The caller currently owns clientLock. -/
def holdsLock : TState → Prop
  | TState.locked => True
  | TState.constructing => True
  | _ => False

theorem get?_set_cases {α : Type} {l : List α} {i j : Nat} {x a : α}
    (h : (l.set i x).get? j = some a) : (i = j ∧ a = x) ∨ (i ≠ j ∧ l.get? j = some a) := by
  by_cases hij : i = j
  · subst hij
    rw [List.get?_set_eq] at h
    cases hl : l.get? i with
    | none => rw [hl] at h; cases h
    | some b => rw [hl] at h; exact Or.inl ⟨rfl, by simpa using h.symm⟩
  · exact Or.inr ⟨hij, by rwa [List.get?_set_ne _ _ hij] at h⟩

/-- Global invariant of the connection manager interleaving. -/
def cmInv (s : CMState) : Prop :=
  s.count ≤ 1 ∧
  (s.cache = none → s.count = 0) ∧
  (∀ h, s.cache = some h → h = 0 ∧ s.count = 1) ∧
  (s.lock = false → ∀ i t, s.threads.get? i = some t → ¬ holdsLock t) ∧
  (∀ i j ti tj, s.threads.get? i = some ti → s.threads.get? j = some tj →
      holdsLock ti → holdsLock tj → i = j) ∧
  (∀ i, s.threads.get? i = some TState.constructing → s.cache = none) ∧
  (∀ i h, s.threads.get? i = some (TState.done h) → h = 0 ∧ s.count = 1)

theorem cmInv_step {s s' : CMState} (hinv : cmInv s) (hstep : cmStep s s') : cmInv s' := by
  obtain ⟨h1, h2, h3, h4, h5, h6, h7⟩ := hinv
  cases hstep with
  | optimisticHit i h hti hc =>
    refine ⟨h1, h2, h3, ?_, ?_, ?_, ?_⟩
    · intro hl i' t hget hhold
      rcases get?_set_cases hget with ⟨rfl, rfl⟩ | ⟨hne, hget'⟩
      · exact hhold
      · exact h4 hl i' t hget' hhold
    · intro i' j' ti tj hgi hgj hhi hhj
      rcases get?_set_cases hgi with ⟨rfl, rfl⟩ | ⟨hne, hgi'⟩
      · exact absurd hhi (by simp [holdsLock])
      · rcases get?_set_cases hgj with ⟨rfl, rfl⟩ | ⟨hne', hgj'⟩
        · exact absurd hhj (by simp [holdsLock])
        · exact h5 i' j' ti tj hgi' hgj' hhi hhj
    · intro i' hget
      rcases get?_set_cases hget with ⟨rfl, habs⟩ | ⟨hne, hget'⟩
      · cases habs
      · exact h6 i' hget'
    · intro i' h' hget
      rcases get?_set_cases hget with ⟨rfl, hdone⟩ | ⟨hne, hget'⟩
      · cases hdone; exact h3 h hc
      · exact h7 i' h' hget'
  | optimisticMiss i hti hc =>
    refine ⟨h1, h2, h3, ?_, ?_, ?_, ?_⟩
    · intro hl i' t hget hhold
      rcases get?_set_cases hget with ⟨rfl, rfl⟩ | ⟨hne, hget'⟩
      · exact hhold
      · exact h4 hl i' t hget' hhold
    · intro i' j' ti tj hgi hgj hhi hhj
      rcases get?_set_cases hgi with ⟨rfl, rfl⟩ | ⟨hne, hgi'⟩
      · exact absurd hhi (by simp [holdsLock])
      · rcases get?_set_cases hgj with ⟨rfl, rfl⟩ | ⟨hne', hgj'⟩
        · exact absurd hhj (by simp [holdsLock])
        · exact h5 i' j' ti tj hgi' hgj' hhi hhj
    · intro i' hget
      rcases get?_set_cases hget with ⟨rfl, habs⟩ | ⟨hne, hget'⟩
      · cases habs
      · exact h6 i' hget'
    · intro i' h' hget
      rcases get?_set_cases hget with ⟨rfl, hdone⟩ | ⟨hne, hget'⟩
      · cases hdone
      · exact h7 i' h' hget'
  | acquire i hti hl =>
    refine ⟨h1, h2, h3, ?_, ?_, ?_, ?_⟩
    · intro hfalse; cases hfalse
    · intro i' j' ti tj hgi hgj hhi hhj
      rcases get?_set_cases hgi with ⟨rfl, rfl⟩ | ⟨hne, hgi'⟩
      · rcases get?_set_cases hgj with ⟨heq, rfl⟩ | ⟨hne', hgj'⟩
        · exact heq
        · exact absurd hhj (h4 hl j' tj hgj')
      · exact absurd hhi (h4 hl i' ti hgi')
    · intro i' hget
      rcases get?_set_cases hget with ⟨rfl, habs⟩ | ⟨hne, hget'⟩
      · cases habs
      · exact h6 i' hget'
    · intro i' h' hget
      rcases get?_set_cases hget with ⟨rfl, hdone⟩ | ⟨hne, hget'⟩
      · cases hdone
      · exact h7 i' h' hget'
  | pessimisticHit i h hti hc =>
    refine ⟨h1, h2, h3, ?_, ?_, ?_, ?_⟩
    · intro _ i' t hget hhold
      rcases get?_set_cases hget with ⟨rfl, rfl⟩ | ⟨hne, hget'⟩
      · exact hhold
      · exact absurd (h5 i' i t TState.locked hget' hti hhold trivial) (Ne.symm hne)
    · intro i' j' ti tj hgi hgj hhi hhj
      rcases get?_set_cases hgi with ⟨rfl, rfl⟩ | ⟨hne, hgi'⟩
      · exact absurd hhi (by simp [holdsLock])
      · exact absurd (h5 i' i ti TState.locked hgi' hti hhi trivial) (Ne.symm hne)
    · intro i' hget
      rcases get?_set_cases hget with ⟨rfl, habs⟩ | ⟨hne, hget'⟩
      · cases habs
      · rw [h6 i' hget'] at hc; cases hc
    · intro i' h' hget
      rcases get?_set_cases hget with ⟨rfl, hdone⟩ | ⟨hne, hget'⟩
      · cases hdone; exact h3 h hc
      · exact h7 i' h' hget'
  | pessimisticMiss i hti hc =>
    refine ⟨h1, h2, h3, ?_, ?_, ?_, ?_⟩
    · intro hl
      exact absurd trivial (h4 hl i TState.locked hti)
    · intro i' j' ti tj hgi hgj hhi hhj
      rcases get?_set_cases hgi with ⟨rfl, rfl⟩ | ⟨hne, hgi'⟩
      · rcases get?_set_cases hgj with ⟨heq, rfl⟩ | ⟨hne', hgj'⟩
        · exact heq
        · exact absurd (h5 j' i tj TState.locked hgj' hti hhj trivial) (Ne.symm hne')
      · exact absurd (h5 i' i ti TState.locked hgi' hti hhi trivial) (Ne.symm hne)
    · intro i' hget
      rcases get?_set_cases hget with ⟨rfl, _⟩ | ⟨hne, hget'⟩
      · exact hc
      · exact h6 i' hget'
    · intro i' h' hget
      rcases get?_set_cases hget with ⟨rfl, hdone⟩ | ⟨hne, hget'⟩
      · cases hdone
      · exact h7 i' h' hget'
  | constructOk i hti =>
    have hcnone : s.cache = none := h6 i hti
    have hcount : s.count = 0 := h2 hcnone
    refine ⟨?_, ?_, ?_, ?_, ?_, ?_, ?_⟩
    · show s.count + 1 ≤ 1
      omega
    · intro habs; cases habs
    · intro h' hc'
      have hch : s.count = h' := by simpa using hc'
      refine ⟨by omega, ?_⟩
      show s.count + 1 = 1
      omega
    · intro _ i' t hget hhold
      rcases get?_set_cases hget with ⟨rfl, rfl⟩ | ⟨hne, hget'⟩
      · exact hhold
      · exact absurd (h5 i' i t TState.constructing hget' hti hhold trivial) (Ne.symm hne)
    · intro i' j' ti tj hgi hgj hhi hhj
      rcases get?_set_cases hgi with ⟨rfl, rfl⟩ | ⟨hne, hgi'⟩
      · exact absurd hhi (by simp [holdsLock])
      · exact absurd (h5 i' i ti TState.constructing hgi' hti hhi trivial) (Ne.symm hne)
    · intro i' hget
      rcases get?_set_cases hget with ⟨rfl, habs⟩ | ⟨hne, hget'⟩
      · cases habs
      · exact absurd (h5 i' i TState.constructing TState.constructing hget' hti trivial trivial) (Ne.symm hne)
    · intro i' h' hget
      rcases get?_set_cases hget with ⟨rfl, hdone⟩ | ⟨hne, hget'⟩
      · injection hdone with hh
        subst hh
        refine ⟨hcount, ?_⟩
        show s.count + 1 = 1
        omega
      · have h7' := (h7 i' h' hget').2
        exact absurd (hcount ▸ h7') (by omega)
  | constructFail i hti =>
    refine ⟨h1, h2, h3, ?_, ?_, ?_, ?_⟩
    · intro _ i' t hget hhold
      rcases get?_set_cases hget with ⟨rfl, rfl⟩ | ⟨hne, hget'⟩
      · exact hhold
      · exact absurd (h5 i' i t TState.constructing hget' hti hhold trivial) (Ne.symm hne)
    · intro i' j' ti tj hgi hgj hhi hhj
      rcases get?_set_cases hgi with ⟨rfl, rfl⟩ | ⟨hne, hgi'⟩
      · exact absurd hhi (by simp [holdsLock])
      · exact absurd (h5 i' i ti TState.constructing hgi' hti hhi trivial) (Ne.symm hne)
    · intro i' hget
      rcases get?_set_cases hget with ⟨rfl, habs⟩ | ⟨hne, hget'⟩
      · cases habs
      · exact h6 i' hget'
    · intro i' h' hget
      rcases get?_set_cases hget with ⟨rfl, hdone⟩ | ⟨hne, hget'⟩
      · cases hdone
      · exact h7 i' h' hget'

theorem cmReach_inv {n : Nat} {s : CMState} (h : cmReach n s) : cmInv s := by
  induction h with
  | init =>
    refine ⟨by simp [cmInit], by simp [cmInit], by simp [cmInit], ?_, ?_, ?_, ?_⟩
    · intro _ i t hget hhold
      have : t = TState.start := List.eq_of_mem_replicate (List.get?_mem hget)
      subst this; exact hhold
    · intro i j ti tj hgi hgj hhi hhj
      have : ti = TState.start := List.eq_of_mem_replicate (List.get?_mem hgi)
      subst this; exact absurd hhi (by simp [holdsLock])
    · intro i hget
      have : TState.constructing = TState.start :=
        List.eq_of_mem_replicate (List.get?_mem hget)
      cases this
    · intro i h hget
      have : TState.done h = TState.start := List.eq_of_mem_replicate (List.get?_mem hget)
      cases this
  | step _ hstep ih => exact cmInv_step ih hstep

/-! ## Invariant preservation of the three mutating operations -/

theorem wlInvariant_append {l : List WaitingListEntry} {x : WaitingListEntry}
    (hinv : wlInvariant l) (hid : ∀ w ∈ l, x.id ≠ w.id)
    (hpid : ∀ w ∈ l, x.patientId ≠ w.patientId) : wlInvariant (l ++ [x]) := by
  constructor
  · rw [List.map_append, List.nodup_append]
    refine ⟨hinv.1, by simp, ?_⟩
    intro a ha hax
    rcases List.mem_map.mp ha with ⟨w, hw, hwid⟩
    have hax' : a = x.id := by simpa using hax
    exact hid w hw (by rw [← hax', hwid])
  · rw [List.map_append, List.nodup_append]
    refine ⟨hinv.2, by simp, ?_⟩
    intro a ha hax
    rcases List.mem_map.mp ha with ⟨w, hw, hwid⟩
    have hax' : a = x.patientId := by simpa using hax
    exact hpid w hw (by rw [← hax', hwid])

theorem wlInvariant_eraseIdx {l : List WaitingListEntry} (hinv : wlInvariant l) (i : Nat) :
    wlInvariant (l.eraseIdx i) := by
  constructor
  · rw [map_eraseIdx_comm]
    exact hinv.1.sublist (List.eraseIdx_sublist _ i)
  · rw [map_eraseIdx_comm]
    exact hinv.2.sublist (List.eraseIdx_sublist _ i)

theorem nodup_map_set {f : WaitingListEntry → String} {l : List WaitingListEntry}
    {i : Nat} {x : WaitingListEntry} (hn : (l.map f).Nodup)
    (hall : ∀ w ∈ l.eraseIdx i, f w ≠ f x) : ((l.set i x).map f).Nodup := by
  rw [List.map_set]
  apply nodup_set hn
  rw [← map_eraseIdx_comm]
  intro hmem
  rcases List.mem_map.mp hmem with ⟨w, hw, hfw⟩
  exact hall w hw hfw

theorem eraseIdx_ne_of_nodup {f : WaitingListEntry → String} {l : List WaitingListEntry}
    {i : Nat} {old : WaitingListEntry} (hn : (l.map f).Nodup)
    (hget : l.get? i = some old) : ∀ w ∈ l.eraseIdx i, f w ≠ f old := by
  intro w hw heq
  have hmem : f old ∈ (l.eraseIdx i).map f := List.mem_map.mpr ⟨w, hw, heq⟩
  rw [map_eraseIdx_comm] at hmem
  exact nodup_get_not_mem_eraseIdx hn (by rw [List.get?_map, hget]; rfl) hmem

/-- A successful create leaves the persisted list satisfying the uniqueness
invariant. -/
theorem create_preserves_invariant (now : Nat) (freshId : String) (amb : Ambulance)
    (entry : WaitingListEntry) (hinv : wlInvariant amb.waitingList) :
    invOpt (createWaitingListEntry now freshId amb entry).newAmbulance := by
  cases hr : (createWaitingListEntry now freshId amb entry).newAmbulance with
  | none => trivial
  | some amb' =>
    show wlInvariant amb'.waitingList
    unfold createWaitingListEntry at hr
    by_cases hp : entry.patientId = ""
    · simp [hp] at hr
    · rw [if_neg hp] at hr
      simp only at hr
      cases hconf : indexFunc
          (fun w => (normalizeEntry now freshId entry).id == w.id ||
            (normalizeEntry now freshId entry).patientId == w.patientId) amb.waitingList with
      | some j => rw [hconf] at hr; simp at hr
      | none =>
        rw [hconf] at hr
        cases hfind : indexFunc (fun w => (normalizeEntry now freshId entry).id == w.id)
            (reconcile (amb.waitingList ++ [normalizeEntry now freshId entry])) with
        | none => rw [hfind] at hr; simp at hr
        | some i =>
          rw [hfind] at hr
          have hamb' : amb' =
              { amb with waitingList :=
                  reconcile (amb.waitingList ++ [normalizeEntry now freshId entry]) } := by
            simpa using hr.symm
          rw [hamb']
          apply wlInvariant_reconcile
      
          refine wlInvariant_append hinv ?_ ?_
          · intro w hw
            have := indexFunc_eq_none hconf w hw
            simp only [Bool.or_eq_false_iff, beq_eq_false_iff_ne] at this
            exact this.1
          · intro w hw
            have := indexFunc_eq_none hconf w hw
            simp only [Bool.or_eq_false_iff, beq_eq_false_iff_ne] at this
            exact this.2

/-- A successful delete leaves the persisted list satisfying the uniqueness
invariant. -/
theorem delete_preserves_invariant (amb : Ambulance) (entryId : String)
    (hinv : wlInvariant amb.waitingList) :
    invOpt (deleteWaitingListEntry amb entryId).newAmbulance := by
  cases hr : (deleteWaitingListEntry amb entryId).newAmbulance with
  | none => trivial
  | some amb' =>
    show wlInvariant amb'.waitingList
    unfold deleteWaitingListEntry at hr
    by_cases he : entryId = ""
    · simp [he] at hr
    · rw [if_neg he] at hr
      cases hidx : indexFunc (fun w => entryId == w.id) amb.waitingList with
      | none => rw [hidx] at hr; simp at hr
      | some i =>
        rw [hidx] at hr
        have hamb' : amb' =
            { amb with waitingList := reconcile (amb.waitingList.eraseIdx i) } := by
          simpa using hr.symm
        rw [hamb']
        exact wlInvariant_reconcile (wlInvariant_eraseIdx hinv i)

/-- A successful update leaves the persisted list satisfying the uniqueness
invariant, provided a supplied non-empty Id or PatientId does not duplicate
that field of an entry other than the target. -/
theorem update_preserves_invariant (amb : Ambulance) (entryId : String)
    (patch : WaitingListEntry) (hinv : wlInvariant amb.waitingList)
    (hid : patch.id ≠ "" → ∀ w ∈ amb.waitingList, w.id = patch.id → w.id = entryId)
    (hpid : patch.patientId ≠ "" →
      ∀ w ∈ amb.waitingList, w.patientId = patch.patientId → w.id = entryId) :
    invOpt (updateWaitingListEntry amb entryId patch).newAmbulance := by
  cases hr : (updateWaitingListEntry amb entryId patch).newAmbulance with
  | none => trivial
  | some amb' =>
    show wlInvariant amb'.waitingList
    unfold updateWaitingListEntry at hr
    by_cases he : entryId = ""
    · simp [he] at hr
    · rw [if_neg he] at hr
      cases hidx : indexFunc (fun w => entryId == w.id) amb.waitingList with
      | none => rw [hidx] at hr; simp at hr
      | some i =>
        rw [hidx] at hr
        simp only at hr
        cases hget : amb.waitingList.get? i with
        | none => rw [hget] at hr; simp at hr
        | some old =>
          rw [hget] at hr
          simp only at hr
          have hamb' : amb' =
              { amb with waitingList :=
                  reconcile (amb.waitingList.set i (applyPatch old patch)) } := by
            simpa using hr.symm
          rw [hamb']
          apply wlInvariant_reconcile
          have hold : entryId = old.id := by
            rcases indexFunc_eq_some hidx with ⟨e', hget', hpe'⟩
            rw [hget] at hget'
            have heo : old = e' := by simpa using hget'
            subst heo
            simpa using hpe'
          constructor
          · refine nodup_map_set hinv.1 ?_
            intro w hw heq
            rw [applyPatch_id] at heq
            by_cases hp0 : patch.id = ""
            · rw [if_pos hp0] at heq
              exact eraseIdx_ne_of_nodup hinv.1 hget w hw heq
            · rw [if_neg hp0] at heq
              have hwid : w.id = entryId :=
                hid hp0 w ((List.eraseIdx_sublist _ i).subset hw) heq
              exact eraseIdx_ne_of_nodup hinv.1 hget w hw (by rw [hwid, hold])
          · refine nodup_map_set hinv.2 ?_
            intro w hw heq
            rw [applyPatch_patientId] at heq
            by_cases hp0 : patch.patientId = ""
            · rw [if_pos hp0] at heq
              exact eraseIdx_ne_of_nodup hinv.2 hget w hw heq
            · rw [if_neg hp0] at heq
              have hwid : w.id = entryId :=
                hpid hp0 w ((List.eraseIdx_sublist _ i).subset hw) heq
              exact eraseIdx_ne_of_nodup hinv.1 hget w hw (by rw [hwid, hold])

/-! ## Claim theorems -/

/-- C1 (amended): for every create request that stores an entry, the stored
entry's WaitingSince is never strictly BEFORE the server clock at creation
time: a supplied WaitingSince strictly in the past — including a missing
(zero) value whenever now is positive — is normalized to "now", and any
value at or after now (so also a future value) is kept. -/
theorem wlC1_waitingSince_normalized (now : Nat) (freshId : String) (amb : Ambulance)
    (entry e : WaitingListEntry)
    (hp : (createWaitingListEntry now freshId amb entry).payload = some e) :
    now ≤ e.waitingSince ∧
      e.waitingSince = if entry.waitingSince < now then now else entry.waitingSince := by
  have hcore := create_payload_core hp
  have hws : e.waitingSince = (normalizeEntry now freshId entry).waitingSince := hcore.2.2.1
  rw [hws, normalizeEntry_waitingSince]
  refine ⟨?_, rfl⟩
  split_ifs with h
  · exact le_refl now
  · omega

/-- C1 counterexample: with the server clock at 100 and a caller-supplied
WaitingSince of 110 — strictly in the future — the create request succeeds
and stores 110 verbatim; the code normalizes PAST values to now, not future
ones, so the claim as stated is false. -/
theorem wlC1_counterexample :
    (createWaitingListEntry 100 "fresh" ⟨"amb1", "N", []⟩
        ⟨"e1", "p1", 110, 5, 0⟩).status = 200 ∧
      (createWaitingListEntry 100 "fresh" ⟨"amb1", "N", []⟩
        ⟨"e1", "p1", 110, 5, 0⟩).payload.map (·.waitingSince) = some 110 ∧
      (100 : Nat) < 110 := by
  decide

theorem wlC1_witness :
    (createWaitingListEntry 100 "f" ⟨"a1", "n", []⟩ ⟨"x", "p", 50, 0, 0⟩).payload =
        some ⟨"x", "p", 100, 15, 0⟩ ∧
      (100 ≤ (100 : Nat) ∧ (100 : Nat) = if (50 : Nat) < 100 then 100 else 50) :=
  ⟨by decide,
   wlC1_waitingSince_normalized 100 "f" ⟨"a1", "n", []⟩ ⟨"x", "p", 50, 0, 0⟩
     ⟨"x", "p", 100, 15, 0⟩ (by decide)⟩

/-- C2 (amended): on a list satisfying the uniqueness invariant, create and
delete always leave the persisted list satisfying it; update leaves it
satisfying the invariant provided a caller-supplied non-empty Id (resp.
PatientId) does not duplicate that field of an entry other than the target —
the update handler itself performs no uniqueness check. -/
theorem wlC2_invariant_preserved (now : Nat) (freshId : String) (amb : Ambulance)
    (entry : WaitingListEntry) (entryId : String) (patch : WaitingListEntry)
    (hinv : wlInvariant amb.waitingList)
    (hid : patch.id ≠ "" → ∀ w ∈ amb.waitingList, w.id = patch.id → w.id = entryId)
    (hpid : patch.patientId ≠ "" →
      ∀ w ∈ amb.waitingList, w.patientId = patch.patientId → w.id = entryId) :
    invOpt (createWaitingListEntry now freshId amb entry).newAmbulance ∧
      invOpt (deleteWaitingListEntry amb entryId).newAmbulance ∧
      invOpt (updateWaitingListEntry amb entryId patch).newAmbulance :=
  ⟨create_preserves_invariant now freshId amb entry hinv,
   delete_preserves_invariant amb entryId hinv,
   update_preserves_invariant amb entryId patch hinv hid hpid⟩

/-- C2 counterexample: updating entry "b" with the PatientId already held by
entry "a" succeeds (200) and persists a list in which two entries share a
PatientId, so update does not preserve the uniqueness invariant. -/
theorem wlC2_counterexample :
    wlInvariant [⟨"a", "p1", 1, 5, 0⟩, ⟨"b", "p2", 1, 5, 0⟩] ∧
      (updateWaitingListEntry ⟨"a1", "n", [⟨"a", "p1", 1, 5, 0⟩, ⟨"b", "p2", 1, 5, 0⟩]⟩
          "b" ⟨"", "p1", 0, 0, 0⟩).status = 200 ∧
      ¬ invOpt (updateWaitingListEntry ⟨"a1", "n", [⟨"a", "p1", 1, 5, 0⟩, ⟨"b", "p2", 1, 5, 0⟩]⟩
          "b" ⟨"", "p1", 0, 0, 0⟩).newAmbulance := by
  decide

theorem wlC2_witness :
    wlInvariant (⟨"a1", "n", [⟨"a", "p1", 1, 5, 0⟩]⟩ : Ambulance).waitingList ∧
      (invOpt (createWaitingListEntry 7 "f" ⟨"a1", "n", [⟨"a", "p1", 1, 5, 0⟩]⟩
          ⟨"c", "p3", 2, 5, 0⟩).newAmbulance ∧
        invOpt (deleteWaitingListEntry ⟨"a1", "n", [⟨"a", "p1", 1, 5, 0⟩]⟩ "a").newAmbulance ∧
        invOpt (updateWaitingListEntry ⟨"a1", "n", [⟨"a", "p1", 1, 5, 0⟩]⟩ "a"
          ⟨"", "", 0, 9, 0⟩).newAmbulance) :=
  ⟨by decide,
   wlC2_invariant_preserved 7 "f" ⟨"a1", "n", [⟨"a", "p1", 1, 5, 0⟩]⟩ ⟨"c", "p3", 2, 5, 0⟩
     "a" ⟨"", "", 0, 9, 0⟩ (by decide) (by decide) (by decide)⟩

/-- C3: a successful update with an existing entry id stores an entry whose
four caller-visible fields are the caller-supplied values exactly where those
were supplied non-empty (Id, PatientId), after-epoch (WaitingSince), or
positive (EstimatedDurationMinutes), and the prior stored values everywhere
else. -/
theorem wlC3_partial_update (amb : Ambulance) (entryId : String)
    (patch : WaitingListEntry) (i : Nat) (old : WaitingListEntry) (amb' : Ambulance)
    (hidx : indexFunc (fun w => entryId == w.id) amb.waitingList = some i)
    (hget : amb.waitingList.get? i = some old)
    (hamb : (updateWaitingListEntry amb entryId patch).newAmbulance = some amb') :
    ∃ e ∈ amb'.waitingList,
      e.id = (if patch.id = "" then old.id else patch.id) ∧
      e.patientId = (if patch.patientId = "" then old.patientId else patch.patientId) ∧
      e.waitingSince =
        (if 0 < patch.waitingSince then patch.waitingSince else old.waitingSince) ∧
      e.estimatedDurationMinutes =
        (if 0 < patch.estimatedDurationMinutes
         then patch.estimatedDurationMinutes else old.estimatedDurationMinutes) := by
  by_cases he : entryId = ""
  · rw [he] at hamb
    simp [updateWaitingListEntry] at hamb
  · unfold updateWaitingListEntry at hamb
    rw [if_neg he, hidx] at hamb
    simp only at hamb
    rw [hget] at hamb
    simp only at hamb
    have hamb' : amb' =
        { amb with waitingList :=
            reconcile (amb.waitingList.set i (applyPatch old patch)) } := by
      simpa using hamb.symm
    subst hamb'
    have hlen : i < amb.waitingList.length := (List.get?_eq_some.mp hget).1
    have hsetmem : applyPatch old patch ∈ amb.waitingList.set i (applyPatch old patch) :=
      List.get?_mem (List.get?_set_eq_of_lt _ hlen)
    rcases mem_core_reconcile hsetmem with ⟨e, he', hcore⟩
    refine ⟨e, he', ?_, ?_, ?_, ?_⟩
    · rw [hcore.1, applyPatch_id]
    · rw [hcore.2.1, applyPatch_patientId]
    · rw [hcore.2.2.1, applyPatch_waitingSince]
    · rw [hcore.2.2.2, applyPatch_duration]

theorem wlC3_witness :
    (indexFunc (fun w => "a" == w.id) [⟨"a", "p1", 10, 5, 0⟩] = some 0 ∧
      (updateWaitingListEntry ⟨"A", "N", [⟨"a", "p1", 10, 5, 0⟩]⟩ "a"
        ⟨"", "p9", 0, 0, 0⟩).newAmbulance = some ⟨"A", "N", [⟨"a", "p9", 10, 5, 0⟩]⟩) ∧
      ∃ e ∈ (⟨"A", "N", [⟨"a", "p9", 10, 5, 0⟩]⟩ : Ambulance).waitingList,
        e.id = (if ("" : String) = "" then "a" else "") ∧
        e.patientId = (if ("p9" : String) = "" then "p1" else "p9") ∧
        e.waitingSince = (if (0 : Nat) < 0 then 0 else 10) ∧
        e.estimatedDurationMinutes = (if (0 : Int) < 0 then 0 else 5) :=
  ⟨⟨by decide, by decide⟩,
   wlC3_partial_update ⟨"A", "N", [⟨"a", "p1", 10, 5, 0⟩]⟩ "a" ⟨"", "p9", 0, 0, 0⟩ 0
     ⟨"a", "p1", 10, 5, 0⟩ ⟨"A", "N", [⟨"a", "p9", 10, 5, 0⟩]⟩
     (by decide) (by decide) (by decide)⟩

/-- C4 (code bug): UpdateWaitingListEntry returns the element sitting at the
PRE-reconcile index of the reconciled list. Updating entry "b" to an earlier
WaitingSince makes reconciliation move it to the front; the handler then
returns entry "a" — not the updated entry "b" — with a 200 status. -/
theorem wlC4_stale_return :
    (updateWaitingListEntry ⟨"A", "N", [⟨"a", "pa", 5, 5, 0⟩, ⟨"b", "pb", 5, 5, 0⟩]⟩
        "b" ⟨"", "", 1, 0, 0⟩).status = 200 ∧
      (updateWaitingListEntry ⟨"A", "N", [⟨"a", "pa", 5, 5, 0⟩, ⟨"b", "pb", 5, 5, 0⟩]⟩
          "b" ⟨"", "", 1, 0, 0⟩).payload.map (·.id) = some "a" ∧
      ("a" : String) ≠ "b" := by
  decide

/-- C5: a create request whose (normalized) Id or whose PatientId is already
present in the waiting list fails with Conflict (409), persists nothing, and
returns no entry. -/
theorem wlC5_create_conflict (now : Nat) (freshId : String) (amb : Ambulance)
    (entry : WaitingListEntry) (hval : entry.patientId ≠ "")
    (hconf : ∃ w ∈ amb.waitingList,
      (normalizeEntry now freshId entry).id = w.id ∨ entry.patientId = w.patientId) :
    createWaitingListEntry now freshId amb entry = ⟨none, 409, none⟩ := by
  have hex : ∃ w ∈ amb.waitingList,
      ((normalizeEntry now freshId entry).id == w.id ||
        (normalizeEntry now freshId entry).patientId == w.patientId) = true := by
    rcases hconf with ⟨w, hw, hcase⟩
    refine ⟨w, hw, ?_⟩
    rcases hcase with h | h
    · simp [h]
    · simp [normalizeEntry_patientId, h]
  rcases indexFunc_exists_some hex with ⟨i, hi⟩
  unfold createWaitingListEntry
  rw [if_neg hval]
  simp only
  rw [hi]

/-- C5 witness: creating an entry for a patient who already holds one fails
with Conflict and leaves the stored aggregate untouched. -/
theorem wlC5_witness :
    (("p1" : String) ≠ "" ∧
      ∃ w ∈ [(⟨"x", "p1", 0, 5, 0⟩ : WaitingListEntry)],
        (normalizeEntry 10 "f" ⟨"y", "p1", 0, 5, 0⟩).id = w.id ∨
          ("p1" : String) = w.patientId) ∧
      createWaitingListEntry 10 "f" ⟨"A", "N", [⟨"x", "p1", 0, 5, 0⟩]⟩ ⟨"y", "p1", 0, 5, 0⟩ =
        ⟨none, 409, none⟩ :=
  ⟨⟨by decide, by decide⟩,
   wlC5_create_conflict 10 "f" ⟨"A", "N", [⟨"x", "p1", 0, 5, 0⟩]⟩ ⟨"y", "p1", 0, 5, 0⟩
     (by decide) (by decide)⟩

/-- C6: reconciliation is idempotent, and it preserves the set of
{Id, PatientId} identity pairs of the list — only order and derived fields
change. -/
theorem wlC6_reconcile_idempotent_identity (l : List WaitingListEntry) :
    reconcile (reconcile l) = reconcile l ∧
      ∀ p : String × String,
        p ∈ (reconcile l).map (fun e => (e.id, e.patientId)) ↔
          p ∈ l.map (fun e => (e.id, e.patientId)) :=
  ⟨reconcile_idem l, fun _ => (reconcile_map_pair_perm l).mem_iff⟩

/-- C7: document-store Update (absent transport failure) fails with NotFound
exactly when no document is stored under the key, and otherwise succeeds,
fully replacing the document under that key and touching no other key. -/
theorem dbC7_update_semantics {Doc : Type} (store : List (String × Doc)) (key : String)
    (doc : Doc) :
    (updateDocument store key doc = Except.error DbErr.notFound ↔ findDoc store key = none) ∧
      ∀ d₀, findDoc store key = some d₀ →
        ∃ store', updateDocument store key doc = Except.ok store' ∧
          findDoc store' key = some doc ∧
          ∀ k, k ≠ key → findDoc store' k = findDoc store k := by
  constructor
  · constructor
    · intro h
      cases hf : findDoc store key with
      | none => rfl
      | some d => rw [updateDocument, hf] at h; cases h
    · intro h
      rw [updateDocument, h]
  · intro d₀ hd
    refine ⟨replaceDoc store key doc, ?_, ?_, ?_⟩
    · rw [updateDocument, hd]
    · exact findDoc_replaceDoc_self (by rw [hd]; rfl)
    · intro k hk
      exact findDoc_replaceDoc_other hk

theorem dbC7_witness :
    findDoc [("amb1", (1 : Nat))] "amb1" = some 1 ∧
      ∃ store', updateDocument [("amb1", (1 : Nat))] "amb1" 2 = Except.ok store' ∧
        findDoc store' "amb1" = some 2 ∧
        ∀ k, k ≠ "amb1" → findDoc store' k = findDoc [("amb1", (1 : Nat))] k :=
  ⟨by decide, (dbC7_update_semantics [("amb1", (1 : Nat))] "amb1" 2).2 1 (by decide)⟩

/-- C8: in every state reachable by any interleaving of concurrent first-time
callers of connect, the underlying connection has been constructed at most
once; whenever some caller has completed, it has been constructed exactly
once; and all completed callers hold one and the same handle. -/
theorem cmC8_connect_once (n : Nat) (s : CMState) (hreach : cmReach n s) :
    s.count ≤ 1 ∧
      (∀ i h, s.threads.get? i = some (TState.done h) → s.count = 1) ∧
      (∀ i j hi hj, s.threads.get? i = some (TState.done hi) →
        s.threads.get? j = some (TState.done hj) → hi = hj) := by
  obtain ⟨h1, _, _, _, _, _, h7⟩ := cmReach_inv hreach
  refine ⟨h1, ?_, ?_⟩
  · intro i h hget
    exact (h7 i h hget).2
  · intro i j hi hj hgi hgj
    rw [(h7 i hi hgi).1, (h7 j hj hgj).1]

theorem cmC8_witness :
    cmReach 1 ⟨some 0, false, 1, [TState.done 0]⟩ ∧
      ((⟨some 0, false, 1, [TState.done 0]⟩ : CMState).count ≤ 1 ∧
        (∀ i h, (⟨some 0, false, 1, [TState.done 0]⟩ : CMState).threads.get? i =
            some (TState.done h) →
          (⟨some 0, false, 1, [TState.done 0]⟩ : CMState).count = 1) ∧
        (∀ i j hi hj,
          (⟨some 0, false, 1, [TState.done 0]⟩ : CMState).threads.get? i =
              some (TState.done hi) →
            (⟨some 0, false, 1, [TState.done 0]⟩ : CMState).threads.get? j =
              some (TState.done hj) → hi = hj)) := by
  have hreach : cmReach 1 ⟨some 0, false, 1, [TState.done 0]⟩ :=
    cmReach.step (cmReach.step (cmReach.step (cmReach.step cmReach.init
      (cmStep.optimisticMiss (cmInit 1) 0 rfl rfl))
      (cmStep.acquire ⟨none, false, 0, [TState.waitLock]⟩ 0 rfl rfl))
      (cmStep.pessimisticMiss ⟨none, true, 0, [TState.locked]⟩ 0 rfl rfl))
      (cmStep.constructOk ⟨none, true, 0, [TState.constructing]⟩ 0 rfl)
  exact ⟨hreach, cmC8_connect_once 1 _ hreach⟩

/-- C9: get-one, update and delete each reject an empty entry id with the
Validation status 400 — which is not the NotFound status 404 — and persist
nothing. -/
theorem wlC9_empty_entry_id (amb : Ambulance) (patch : WaitingListEntry) :
    getWaitingListEntry amb "" = ⟨none, 400, none⟩ ∧
      updateWaitingListEntry amb "" patch = ⟨none, 400, none⟩ ∧
      deleteWaitingListEntry amb "" = ⟨none, 400, none⟩ ∧ (400 : Nat) ≠ 404 :=
  ⟨rfl, rfl, rfl, by decide⟩

/-- C10: in a successful create, the stored entry's Id is the freshly
generated id exactly when the caller supplied the empty string or the
placeholder "@new"; any other supplied Id is kept verbatim, with no format
validation. -/
theorem wlC10_fresh_id_normalization (now : Nat) (freshId : String) (amb : Ambulance)
    (entry e : WaitingListEntry)
    (hp : (createWaitingListEntry now freshId amb entry).payload = some e) :
    e.id = if entry.id = "" ∨ entry.id = "@new" then freshId else entry.id := by
  have hcore := create_payload_core hp
  rw [hcore.1, normalizeEntry_id]

theorem wlC10_witness :
    (createWaitingListEntry 0 "generated" ⟨"A", "N", []⟩ ⟨"@new", "p", 0, 5, 0⟩).payload =
        some ⟨"generated", "p", 0, 5, 0⟩ ∧
      ("generated" : String) =
        (if ("@new" : String) = "" ∨ ("@new" : String) = "@new" then "generated" else "@new") :=
  ⟨by decide,
   wlC10_fresh_id_normalization 0 "generated" ⟨"A", "N", []⟩ ⟨"@new", "p", 0, 5, 0⟩
     ⟨"generated", "p", 0, 5, 0⟩ (by decide)⟩
